import Mathlib

/-!
Verification of the factor-algebra core of `prob_4e.py` (discrete Bayesian
network inference by variable elimination).

Modelling conventions:
* Python `float` probabilities are modelled as exact rationals `ℚ`.
* Python `dict`s (CPTables, Factor tables, Evidence mappings) are modelled
  as association lists in insertion order; well-formedness hypotheses record
  that dict keys are distinct where a proof needs it.
* Python `set`s (variable domains, the variable-set union in
  `pointwise_product`) are modelled as duplicate-free lists in some
  deterministic order.
* Python exceptions (`KeyError`, `ValueError` from `list.index`,
  `IndexError`, `ZeroDivisionError`, `assert` failures) are modelled by
  `Option`: `none` means the call raises.
* The in-place mutation of `var.parents` performed by `variable_to_factor`
  (`variables = var.parents; variables.append(var)`) is modelled by explicit
  state passing: the function returns the post-call variable record next to
  the factor it builds.
-/

namespace Prob4e

/-- Outcomes are opaque hashable values; we model them as naturals. -/
abbrev Outcome := Nat

/-- A discrete random variable as seen by the factor algebra: a name and the
set of outcomes appearing in its CPT (`Variable.domain` in the source). -/
structure Variable where
  name : String
  domain : List Outcome
deriving DecidableEq

/-- A row: a tuple of outcomes, positionally aligned with a variable list. -/
abbrev Row := List Outcome

/-- An Evidence mapping `{variable: value}`, as an association list. -/
abbrev Evidence := List (Variable × Outcome)

/-- Association-list lookup; models Python `dict` lookup (`d[k]`), with
`none` for a `KeyError`. Keys of a Python dict are distinct, so first-match
lookup agrees with the dict. -/
def alookup {β : Type} (k : Variable) : List (Variable × β) → Option β
  | [] => none
  | p :: l => if p.1 = k then some p.2 else alookup k l

/-- Row-keyed association-list lookup for Factor tables. -/
def rlookup (k : Row) : List (Row × ℚ) → Option ℚ
  | [] => none
  | p :: l => if p.1 = k then some p.2 else rlookup k l

/-- Python `list.index`: position of the first occurrence, `none` models the
`ValueError` raised when the element is absent. -/
def listIndex (l : List Variable) (v : Variable) : Option Nat :=
  match l with
  | [] => none
  | w :: t => if w = v then some 0 else (listIndex t v).map (· + 1)

/-- Effectful map over a list, `none` as soon as one element fails; models a
Python generator/loop whose body may raise. -/
def optMap {α β : Type} (f : α → Option β) : List α → Option (List β)
  | [] => some []
  | a :: l =>
    match f a, optMap f l with
    | some b, some bs => some (b :: bs)
    | _, _ => none

/-- Effectful filter, `none` as soon as one predicate evaluation fails;
models a Python list comprehension whose condition may raise. -/
def optFilter {α : Type} (f : α → Option Bool) : List α → Option (List α)
  | [] => some []
  | a :: l =>
    match f a, optFilter f l with
    | some true, some r => some (a :: r)
    | some false, some r => some r
    | _, _ => none

/-- `itertools.product` over a list of domains: all tuples, first coordinate
varying slowest. -/
def cartesianProduct : List (List Outcome) → List (List Outcome)
  | [] => [[]]
  | d :: ds => d.flatMap (fun x => (cartesianProduct ds).map (fun r => x :: r))

/-- Source `matches_evidence(row, evidence, var_ordering)`:
`all(evidence[v] == row[var_ordering.index(v)] for v in evidence)`.
`none` models the `ValueError`/`IndexError` the generator can raise; the
Python `all` short-circuits at the first `False`, which the recursion
mirrors. -/
def matches_evidence (row : Row) (evidence : Evidence) (var_ordering : List Variable) :
    Option Bool :=
  match evidence with
  | [] => some true
  | p :: rest =>
    match listIndex var_ordering p.1 with
    | none => none
    | some i =>
      match row[i]? with
      | none => none
      | some y => if p.2 = y then matches_evidence row rest var_ordering else some false

/-- Source `all_consistent_events(variables, evidence)`: the rows of the
Cartesian product of the variables' domains that match the evidence. -/
def all_consistent_events (vars : List Variable) (evidence : Evidence) :
    Option (List Row) :=
  optFilter (fun row => matches_evidence row evidence vars)
    (cartesianProduct (vars.map Variable.domain))

/-- Source `filter_event_values(variable_list, event)`:
`tuple(event[var] for var in variable_list)`; `none` models the `KeyError`
when `event` misses one of the variables. -/
def filter_event_values (variable_list : List Variable) (event : Evidence) : Option Row :=
  optMap (fun v => alookup v event) variable_list

/-- A Factor: an ordered variable list and a `{row: probability}` table.
The field `vars` models the source attribute `self.variables` (the word
itself is reserved in Lean). -/
structure Factor where
  vars : List Variable
  table : List (Row × ℚ)
deriving DecidableEq

/-- Source `Factor.__getitem__` on a tuple key: plain dict lookup. -/
def Factor.getRow (f : Factor) (r : Row) : Option ℚ :=
  rlookup r f.table

/-- Source `Factor.__getitem__` on an Evidence-like mapping: filter and
reorder the mapping into the factor's variable order, then look the tuple
up; `none` models either `KeyError`. -/
def Factor.getItem (f : Factor) (event : Evidence) : Option ℚ :=
  match filter_event_values f.vars event with
  | none => none
  | some r => f.getRow r

/-- Source `list(set(self.variables) | set(other.variables))`: the union of
the two variable lists, duplicate-free, in a deterministic order. -/
def unionVars (xs ys : List Variable) : List Variable :=
  (xs ++ ys).dedup

/-- Source `Factor.pointwise_product(other, evidence)`: for every consistent
event over the union variable list, multiply both factors' probabilities for
that event (each looked up through an Evidence built by zipping the union
variable list with the row). -/
def Factor.pointwise_product (self other : Factor) (evidence : Evidence) : Option Factor :=
  let vars := unionVars self.vars other.vars
  match all_consistent_events vars evidence with
  | none => none
  | some rows =>
    match optMap (fun new_row =>
      match self.getItem (vars.zip new_row), other.getItem (vars.zip new_row) with
      | some p_self, some p_other => some (new_row, p_self * p_other)
      | _, _ => none) rows with
    | none => none
    | some table => some ⟨vars, table⟩

/-- Source `Factor.sum_out(var, evidence)`: for every consistent event over
the remaining variables, sum the probabilities of the stored rows that match
the Evidence built by zipping the remaining variables with the event.
Iterating `for row in self` yields the table's keys, whose lookup `self[row]`
is the stored value. -/
def Factor.sum_out (self : Factor) (var : Variable) (evidence : Evidence) : Option Factor :=
  let remaining_vars := self.vars.filter (fun X => X ≠ var)
  match all_consistent_events remaining_vars evidence with
  | none => none
  | some rows =>
    match optMap (fun new_row =>
      match optMap (fun (rp : Row × ℚ) =>
        (matches_evidence rp.1 (remaining_vars.zip new_row) self.vars).map
          (fun b => if b then rp.2 else 0)) self.table with
      | none => none
      | some contribs => some (new_row, contribs.sum)) rows with
    | none => none
    | some table => some ⟨remaining_vars, table⟩

/-- A network Variable as built by `BayesNet.add`: the factor-level variable
(name and domain), its parent list, and its CPT mapping each parent-value
row to an `{outcome: probability}` distribution. -/
structure NetVar where
  self : Variable
  parents : List Variable
  cpt : List (Row × List (Outcome × ℚ))
deriving DecidableEq

/-- Inner loop of `variable_to_factor`: for one CPT row, each outcome of the
distribution extends the row; the extended row is kept when it matches the
evidence, and `none` models the exception `matches_evidence` can raise. -/
def vtfRow1 (vars : List Variable) (evidence : Evidence) (row : Row) :
    List (Outcome × ℚ) → Option (List (Row × ℚ))
  | [] => some []
  | vp :: rest =>
    match matches_evidence (row ++ [vp.1]) evidence vars,
          vtfRow1 vars evidence row rest with
    | some true, some l => some ((row ++ [vp.1], vp.2) :: l)
    | some false, some l => some l
    | _, _ => none

/-- Outer loop of `variable_to_factor` over the CPT rows. -/
def vtfRows (vars : List Variable) (evidence : Evidence) :
    List (Row × List (Outcome × ℚ)) → Option (List (Row × ℚ))
  | [] => some []
  | rd :: rest =>
    match vtfRow1 vars evidence rd.1 rd.2,
          vtfRows vars evidence rest with
    | some l1, some l2 => some (l1 ++ l2)
    | _, _ => none

/-- Source `variable_to_factor(var, evidence)`. The source aliases:
`variables = var.parents; variables.append(var)` mutates `var.parents` in
place, so the function returns the factor together with the post-call state
of `var`, whose `parents` field has become `var.parents ++ [var]`. -/
def variable_to_factor (var : NetVar) (evidence : Evidence) : Option (Factor × NetVar) :=
  let vars := var.parents ++ [var.self]
  match vtfRows vars evidence var.cpt with
  | none => none
  | some factor_mapping =>
    some (⟨vars, factor_mapping⟩, ⟨var.self, vars, var.cpt⟩)

/-- Source `normalize(dist)`, dict branch: compute the total once, divide
every value by it, assert each result lies in `[0,1]`. `none` models the
`ZeroDivisionError` (non-empty dict, zero total) and the assertion
failure. -/
def normalize (dist : List (Outcome × ℚ)) : Option (List (Outcome × ℚ)) :=
  let total := (dist.map Prod.snd).sum
  match dist with
  | [] => some []
  | _ :: _ =>
    if total = 0 then none
    else
      let d := dist.map (fun kv => (kv.1, kv.2 / total))
      if d.all (fun kv => decide (0 ≤ kv.2) && decide (kv.2 ≤ 1)) then some d else none

/-! ### Concrete network fragments used by the witnesses -/

/-- A boolean variable `X` (outcome 1 plays T, outcome 0 plays F). -/
def vX : Variable := ⟨"X", [0, 1]⟩

/-- A boolean variable `Y`. -/
def vY : Variable := ⟨"Y", [0, 1]⟩

/-- A boolean variable `W`, not mentioned by the concrete factors below. -/
def vW : Variable := ⟨"W", [0, 1]⟩

/-- A complete one-variable factor over `X`. -/
def fA : Factor := ⟨[vX], [([0], 3), ([1], 7)]⟩

/-- A complete two-variable factor over `X, Y`. -/
def fB : Factor := ⟨[vX, vY], [([0, 0], 9), ([0, 1], 1), ([1, 0], 2), ([1, 1], 8)]⟩

/-- The network variable `Y` with single parent `X` and a full CPT. -/
def nvY : NetVar := ⟨vY, [vX], [([0], [(0, 9), (1, 1)]), ([1], [(0, 2), (1, 8)])]⟩

/-- A weight mapping with non-negative weights and positive total. -/
def distW : List (Outcome × ℚ) := [(0, 1), (1, 3)]

/-! ### Helper lemmas about the list and option plumbing -/

theorem listIndex_eq_none {l : List Variable} {v : Variable} :
    listIndex l v = none ↔ v ∉ l := by
  induction l with
  | nil => simp [listIndex]
  | cons w t ih =>
    by_cases h : w = v
    · subst h; simp [listIndex]
    · simp only [listIndex, if_neg h, Option.map_eq_none', ih, List.mem_cons]
      constructor
      · intro hv hor
        rcases hor with rfl | hm
        · exact h rfl
        · exact hv hm
      · intro hv hm
        exact hv (Or.inr hm)

theorem listIndex_isSome_of_mem {l : List Variable} {v : Variable} (h : v ∈ l) :
    ∃ i, listIndex l v = some i := by
  rcases ho : listIndex l v with _ | i
  · exact absurd (listIndex_eq_none.mp ho) (not_not.mpr h)
  · exact ⟨i, rfl⟩

theorem listIndex_lt {l : List Variable} {v : Variable} :
    ∀ {i : Nat}, listIndex l v = some i → i < l.length := by
  induction l with
  | nil => intro i h; simp [listIndex] at h
  | cons w t ih =>
    intro i h
    simp only [listIndex] at h
    by_cases hw : w = v
    · rw [if_pos hw] at h
      cases h
      simp
    · rw [if_neg hw] at h
      rcases Option.map_eq_some'.mp h with ⟨j, hj, rfl⟩
      simpa using Nat.succ_lt_succ (ih hj)

theorem listIndex_getElem {l : List Variable} {v : Variable} :
    ∀ {i : Nat}, listIndex l v = some i → l[i]? = some v := by
  induction l with
  | nil => intro i h; simp [listIndex] at h
  | cons w t ih =>
    intro i h
    simp only [listIndex] at h
    by_cases hw : w = v
    · rw [if_pos hw] at h
      cases h
      simp [hw]
    · rw [if_neg hw] at h
      rcases Option.map_eq_some'.mp h with ⟨j, hj, rfl⟩
      simpa using ih hj

theorem alookup_zip (vs : List Variable) (row : Row) (v : Variable) :
    alookup v (vs.zip row) = (listIndex vs v).bind (fun i => row[i]?) := by
  induction vs generalizing row with
  | nil => simp [alookup, listIndex]
  | cons w t ih =>
    cases row with
    | nil =>
      rcases h : listIndex (w :: t) v with _ | i <;>
        simp [alookup, List.zip_nil_right, h]
    | cons y r =>
      simp only [List.zip_cons_cons, alookup, listIndex]
      by_cases hw : w = v
      · simp [hw]
      · rw [if_neg hw, if_neg hw]
        have h2 : alookup v (List.zipWith Prod.mk t r) =
            (listIndex t v).bind fun i => r[i]? := ih r
        rw [h2]
        rcases listIndex t v with _ | j <;> simp

theorem alookup_eq_none {β : Type} {k : Variable} :
    ∀ {l : List (Variable × β)}, alookup k l = none ↔ k ∉ l.map Prod.fst := by
  intro l
  induction l with
  | nil => simp [alookup]
  | cons p t ih =>
    by_cases h : p.1 = k
    · simp [alookup, h]
    · simp only [alookup, if_neg h, ih, List.map_cons, List.mem_cons]
      constructor
      · intro hk hor
        rcases hor with heq | hm
        · exact h heq.symm
        · exact hk hm
      · intro hk hm
        exact hk (Or.inr hm)

theorem optMap_eq_map {α β : Type} (f : α → Option β) (g : α → β) :
    ∀ l : List α, (∀ a ∈ l, f a = some (g a)) → optMap f l = some (l.map g)
  | [], _ => rfl
  | a :: l, h => by
    have ha := h a (by simp)
    have hl := optMap_eq_map f g l (fun x hx => h x (by simp [hx]))
    simp [optMap, ha, hl]

theorem optMap_eq_some_iff {α β : Type} {f : α → Option β} :
    ∀ {l : List α} {bs : List β},
      optMap f l = some bs ↔ List.Forall₂ (fun a b => f a = some b) l bs := by
  intro l
  induction l with
  | nil =>
    intro bs
    cases bs <;> simp [optMap]
  | cons a l ih =>
    intro bs
    cases hfa : f a with
    | none =>
      simp only [optMap, hfa]
      constructor
      · intro h; cases h
      · intro h
        cases h with
        | cons hab _ => rw [hfa] at hab; cases hab
    | some b =>
      cases ho : optMap f l with
      | none =>
        simp only [optMap, hfa, ho]
        constructor
        · intro h; cases h
        · intro h
          cases bs with
          | nil => cases h
          | cons b0 bs0 =>
            cases h with
            | cons hab htail =>
              have := ih.mpr htail
              rw [ho] at this
              cases this
      | some bs0 =>
        simp only [optMap, hfa, ho]
        constructor
        · intro h
          cases h
          exact List.Forall₂.cons hfa (ih.mp ho)
        · intro h
          cases bs with
          | nil => cases h
          | cons b1 bs1 =>
            cases h with
            | cons hab htail =>
              rw [hfa] at hab
              cases hab
              have := ih.mpr htail
              rw [ho] at this
              cases this
              rfl

theorem optMap_eq_none {α β : Type} (f : α → Option β) {l : List α} {a : α}
    (ha : a ∈ l) (hfa : f a = none) : optMap f l = none := by
  induction l with
  | nil => cases ha
  | cons x l ih =>
    rcases List.mem_cons.mp ha with rfl | h
    · simp [optMap, hfa]
    · cases hfx : f x <;> simp [optMap, hfx, ih h]

theorem optFilter_eq_filter {α : Type} (f : α → Option Bool) (g : α → Bool) :
    ∀ l : List α, (∀ a ∈ l, f a = some (g a)) → optFilter f l = some (l.filter g)
  | [], _ => rfl
  | a :: l, h => by
    have ha := h a (by simp)
    have hl := optFilter_eq_filter f g l (fun x hx => h x (by simp [hx]))
    cases hg : g a with
    | true => simp [optFilter, ha, hg, hl, List.filter_cons]
    | false => simp [optFilter, ha, hg, hl, List.filter_cons]

theorem rlookup_graph (val : Row → ℚ) :
    ∀ (rows : List Row) {r : Row}, r ∈ rows →
      rlookup r (rows.map (fun b => (b, val b))) = some (val r)
  | [], _, h => by cases h
  | b :: rows, r, h => by
    by_cases hb : b = r
    · subst hb
      simp [rlookup]
    · rcases List.mem_cons.mp h with rfl | hr
      · exact absurd rfl hb
      · simp [rlookup, hb, rlookup_graph val rows hr]

theorem rlookup_eq_none {r : Row} :
    ∀ {t : List (Row × ℚ)}, rlookup r t = none ↔ r ∉ t.map Prod.fst := by
  intro t
  induction t with
  | nil => simp [rlookup]
  | cons p t ih =>
    by_cases h : p.1 = r
    · simp [rlookup, h]
    · simp only [rlookup, if_neg h, ih, List.map_cons, List.mem_cons]
      constructor
      · intro hk hor
        rcases hor with heq | hm
        · exact h heq.symm
        · exact hk hm
      · intro hk hm
        exact hk (Or.inr hm)

theorem rlookup_of_mem :
    ∀ {t : List (Row × ℚ)} {r : Row} {p : ℚ},
      (t.map Prod.fst).Nodup → (r, p) ∈ t → rlookup r t = some p := by
  intro t
  induction t with
  | nil => intro r p _ hm; cases hm
  | cons q t ih =>
    intro r p hnd hm
    rcases List.mem_cons.mp hm with rfl | hm0
    · simp [rlookup]
    · have hq : q.1 ≠ r := by
        intro hqr
        have : r ∈ t.map Prod.fst := List.mem_map.mpr ⟨(r, p), hm0, rfl⟩
        rw [List.map_cons, List.nodup_cons] at hnd
        exact hnd.1 (hqr ▸ this)
      simp only [rlookup, if_neg hq]
      exact ih (List.nodup_cons.mp (by simpa using hnd)).2 hm0

theorem mem_cartesianProduct {ds : List (List Outcome)} {r : Row} :
    r ∈ cartesianProduct ds ↔ List.Forall₂ (fun x d => x ∈ d) r ds := by
  induction ds generalizing r with
  | nil =>
    cases r <;> simp [cartesianProduct]
  | cons d ds ih =>
    simp only [cartesianProduct, List.mem_flatMap, List.mem_map]
    constructor
    · rintro ⟨x, hx, r', hr', rfl⟩
      exact List.Forall₂.cons hx (ih.mp hr')
    · intro h
      cases h with
      | cons hx hr => exact ⟨_, hx, _, ih.mpr hr, rfl⟩

theorem length_cartesianProduct (ds : List (List Outcome)) :
    (cartesianProduct ds).length = (ds.map List.length).prod := by
  induction ds with
  | nil => rfl
  | cons d ds ih =>
    simp only [cartesianProduct, List.length_flatMap, Function.comp_def, List.length_map,
      List.map_cons, List.prod_cons, ih]
    rw [List.map_const', List.sum_replicate, smul_eq_mul]

theorem nodup_cartesianProduct :
    ∀ {ds : List (List Outcome)}, (∀ d ∈ ds, d.Nodup) → (cartesianProduct ds).Nodup := by
  intro ds
  induction ds with
  | nil => intro _; simp [cartesianProduct]
  | cons d ds ih =>
    intro h
    have hd : d.Nodup := h d (by simp)
    have hds := ih (fun x hx => h x (by simp [hx]))
    simp only [cartesianProduct]
    rw [List.nodup_flatMap]
    refine ⟨fun x _ => hds.map (fun a b hab => by injection hab), ?_⟩
    refine List.Pairwise.imp ?_ hd
    intro a b hab
    rw [Function.onFun, List.disjoint_left]
    rintro r hra hrb
    rcases List.mem_map.mp hra with ⟨ra, _, rfl⟩
    rcases List.mem_map.mp hrb with ⟨rb, _, hcons⟩
    injection hcons with h1 _
    exact hab h1.symm

theorem forall₂_getElem {α β : Type} {R : α → β → Prop} :
    ∀ {l₁ : List α} {l₂ : List β}, List.Forall₂ R l₁ l₂ →
      ∀ {i : Nat} {x : α} {y : β}, l₁[i]? = some x → l₂[i]? = some y → R x y := by
  intro l₁ l₂ h
  induction h with
  | nil => intro i x y hx _; simp at hx
  | cons hab _ ih =>
    intro i x y hx hy
    cases i with
    | zero =>
      simp only [List.getElem?_cons_zero, Option.some_inj] at hx hy
      exact hx ▸ hy ▸ hab
    | succ n =>
      simp only [List.getElem?_cons_succ] at hx hy
      exact ih hx hy

theorem sum_map_ite_filter {α : Type} (P : α → Prop) [DecidablePred P] (f : α → ℚ) :
    ∀ l : List α, (l.map (fun a => if P a then f a else 0)).sum =
      ((l.filter (fun a => decide (P a))).map f).sum
  | [] => rfl
  | a :: l => by
    by_cases h : P a <;>
      simp [List.filter_cons, h, sum_map_ite_filter P f l]

theorem sum_map_add {α : Type} (f g : α → ℚ) :
    ∀ l : List α, (l.map (fun a => f a + g a)).sum = (l.map f).sum + (l.map g).sum
  | [] => by simp
  | a :: l => by
    simp only [List.map_cons, List.sum_cons, sum_map_add f g l]
    ring

theorem sum_sum_comm {α β : Type} (f : α → β → ℚ) :
    ∀ (l : List α) (m : List β),
      (l.map (fun a => (m.map (f a)).sum)).sum =
        (m.map (fun b => (l.map (fun a => f a b)).sum)).sum
  | [], m => by simp
  | a :: l, m => by
    simp only [List.map_cons, List.sum_cons, sum_sum_comm f l m]
    rw [← sum_map_add]

theorem sum_ite_eq_single {α : Type} [DecidableEq α] (c : ℚ) :
    ∀ {l : List α}, l.Nodup → ∀ {x : α}, x ∈ l →
      (l.map (fun b => if x = b then c else 0)).sum = c := by
  intro l
  induction l with
  | nil => intro _ x hx; cases hx
  | cons b l ih =>
    intro hnd x hx
    have hbl : b ∉ l := (List.nodup_cons.mp hnd).1
    rcases List.mem_cons.mp hx with rfl | hxl
    · have hz : (l.map (fun b => if x = b then c else 0)).sum = 0 := by
        apply List.sum_eq_zero
        intro q hq
        rcases List.mem_map.mp hq with ⟨b0, hb0, rfl⟩
        rw [if_neg (fun h : x = b0 => hbl (h ▸ hb0))]
      simp only [List.map_cons, List.sum_cons]
      rw [hz, add_zero]
      simp
    · have hb : x ≠ b := fun h => hbl (h ▸ hxl)
      simp only [List.map_cons, List.sum_cons, if_neg hb]
      rw [ih (List.nodup_cons.mp hnd).2 hxl, zero_add]

/-- The loop body of `matches_evidence` evaluates, for an evidence pair
`p`, to the row value at the first index of `p.1` in the ordering. When
that value exists for every pair, the whole call returns the decided
conjunction (Python `all`). -/
theorem matches_evidence_eq {row : Row} {vo : List Variable} :
    ∀ {e : Evidence},
      (∀ p ∈ e, ∃ y, (listIndex vo p.1).bind (fun i => row[i]?) = some y) →
      matches_evidence row e vo =
        some (decide (∀ p ∈ e, (listIndex vo p.1).bind (fun i => row[i]?) = some p.2))
  | [], _ => by simp [matches_evidence]
  | p :: rest, h => by
    rcases h p (by simp) with ⟨y, hy⟩
    rcases hbind : listIndex vo p.1 with _ | i
    · rw [hbind] at hy
      simp at hy
    · rw [hbind] at hy
      simp only [Option.some_bind] at hy
      have hrest := @matches_evidence_eq row vo rest (fun q hq => h q (by simp [hq]))
      simp only [matches_evidence, hbind, hy]
      by_cases hpy : p.2 = y
      · rw [if_pos hpy, hrest]
        congr 1
        rw [decide_eq_decide]
        rw [List.forall_mem_cons]
        have hhead : (listIndex vo p.1).bind (fun i => row[i]?) = some p.2 := by
          rw [hbind, Option.some_bind, hy, hpy]
        simp [hhead, hbind, hy, hpy]
      · rw [if_neg hpy]
        have hhead : ¬((listIndex vo p.1).bind (fun i => row[i]?) = some p.2) := by
          rw [hbind, Option.some_bind, hy]
          intro hc
          exact hpy (Option.some_inj.mp hc).symm
        have hnall : ¬(∀ q ∈ p :: rest,
            (listIndex vo q.1).bind (fun i => row[i]?) = some q.2) :=
          fun hall => hhead (hall p (by simp))
        rw [decide_eq_false hnall]

theorem getElem?_isSome_of_lt {row : Row} {i : Nat} (h : i < row.length) :
    ∃ y, row[i]? = some y := by
  rcases hy : row[i]? with _ | y
  · rw [List.getElem?_eq_none_iff] at hy
    omega
  · exact ⟨y, rfl⟩

/-- When every evidence key occurs in the ordering and the row is long
enough, `matches_evidence` returns the decided conjunction of the positional
equalities. -/
theorem matches_total {row : Row} {vo : List Variable} {e : Evidence}
    (hk : ∀ p ∈ e, p.1 ∈ vo) (hlen : vo.length ≤ row.length) :
    matches_evidence row e vo =
      some (decide (∀ p ∈ e, (listIndex vo p.1).bind (fun i => row[i]?) = some p.2)) :=
  matches_evidence_eq (fun p hp => by
    rcases listIndex_isSome_of_mem (hk p hp) with ⟨i, hi⟩
    rcases getElem?_isSome_of_lt (lt_of_lt_of_le (listIndex_lt hi) hlen) with ⟨y, hy⟩
    exact ⟨y, by rw [hi, Option.some_bind, hy]⟩)

theorem length_of_mem_cartesianProduct {vs : List Variable} {row : Row}
    (h : row ∈ cartesianProduct (vs.map Variable.domain)) : row.length = vs.length := by
  have := (mem_cartesianProduct.mp h).length_eq
  simpa using this

theorem mem_domain_of_mem_cartesian {vs : List Variable} {row : Row}
    (h : row ∈ cartesianProduct (vs.map Variable.domain)) {i : Nat} {v : Variable}
    {y : Outcome} (hv : vs[i]? = some v) (hy : row[i]? = some y) : y ∈ v.domain := by
  have hf := mem_cartesianProduct.mp h
  have hd : (vs.map Variable.domain)[i]? = some v.domain := by
    rw [List.getElem?_map, hv]
    rfl
  exact forall₂_getElem hf hy hd

/-- With evidence keys inside the variable list, `all_consistent_events`
returns the filtered Cartesian product. -/
theorem all_consistent_events_eq (vs : List Variable) (e : Evidence)
    (hk : ∀ p ∈ e, p.1 ∈ vs) :
    all_consistent_events vs e =
      some ((cartesianProduct (vs.map Variable.domain)).filter
        (fun row => decide (∀ p ∈ e,
          (listIndex vs p.1).bind (fun i => row[i]?) = some p.2))) := by
  apply optFilter_eq_filter
  intro row hrow
  exact matches_total hk (le_of_eq (length_of_mem_cartesianProduct hrow).symm)

/-- Restriction of a full row to a sub-list of variables, through the
zip-Evidence used by `pointwise_product` and the factor lookups. -/
theorem filter_event_values_zip (U : List Variable) (row : Row) (vs : List Variable)
    (hsub : ∀ v ∈ vs, v ∈ U) (hlen : U.length ≤ row.length) :
    filter_event_values vs (U.zip row) =
      some (vs.map (fun v => ((listIndex U v).bind (fun i => row[i]?)).getD 0)) := by
  apply optMap_eq_map
  intro v hv
  rw [alookup_zip]
  rcases listIndex_isSome_of_mem (hsub v hv) with ⟨i, hi⟩
  rcases getElem?_isSome_of_lt (lt_of_lt_of_le (listIndex_lt hi) hlen) with ⟨y, hy⟩
  rw [hi, Option.some_bind, hy]
  rfl

/-- The restriction of a row of the Cartesian product over `U` to a
sub-list `vs` of `U` lies in the Cartesian product over `vs`. -/
theorem restricted_mem_cartesian (U : List Variable) (row : Row) (vs : List Variable)
    (hsub : ∀ v ∈ vs, v ∈ U)
    (hrow : row ∈ cartesianProduct (U.map Variable.domain)) :
    (vs.map (fun v => ((listIndex U v).bind (fun i => row[i]?)).getD 0)) ∈
      cartesianProduct (vs.map Variable.domain) := by
  rw [mem_cartesianProduct, List.forall₂_map_left_iff, List.forall₂_map_right_iff]
  rw [List.forall₂_same]
  intro v hv
  rcases listIndex_isSome_of_mem (hsub v hv) with ⟨i, hi⟩
  have hlen : U.length ≤ row.length :=
    le_of_eq (length_of_mem_cartesianProduct hrow).symm
  rcases getElem?_isSome_of_lt (lt_of_lt_of_le (listIndex_lt hi) hlen) with ⟨y, hy⟩
  rw [hi, Option.some_bind, hy]
  exact mem_domain_of_mem_cartesian hrow (listIndex_getElem hi) hy

theorem sum_map_div {α : Type} (f : α → ℚ) (c : ℚ) :
    ∀ l : List α, (l.map (fun a => f a / c)).sum = (l.map f).sum / c
  | [] => by simp
  | a :: l => by simp [sum_map_div f c l, add_div]

/-- Evaluation of `normalize` on a non-empty mapping whose normalized values
pass the assertion. -/
theorem normalize_cons (q : Outcome × ℚ) (t : List (Outcome × ℚ))
    (hne : ((q :: t).map Prod.snd).sum ≠ 0)
    (hall : ∀ kv ∈ (q :: t).map (fun kv => (kv.1, kv.2 / ((q :: t).map Prod.snd).sum)),
      0 ≤ kv.2 ∧ kv.2 ≤ 1) :
    normalize (q :: t) =
      some ((q :: t).map (fun kv => (kv.1, kv.2 / ((q :: t).map Prod.snd).sum))) := by
  have hcheck : ((q :: t).map (fun kv => (kv.1, kv.2 / ((q :: t).map Prod.snd).sum))).all
      (fun kv => decide (0 ≤ kv.2) && decide (kv.2 ≤ 1)) = true := by
    rw [List.all_eq_true]
    intro kv hkv
    rw [Bool.and_eq_true, decide_eq_true_iff, decide_eq_true_iff]
    exact hall kv hkv
  simp only [normalize, if_neg hne, hcheck, if_true]

/-- Evaluation of the inner `variable_to_factor` loop: one CPT row, every
outcome of its distribution, keeping the evidence-consistent extensions. -/
theorem vtfRow1_spec (vars : List Variable) (evidence : Evidence) (row : Row)
    (hk : ∀ p ∈ evidence, p.1 ∈ vars) (hlen : vars.length ≤ row.length + 1) :
    ∀ dist : List (Outcome × ℚ), ∃ l, vtfRow1 vars evidence row dist = some l ∧
      ∀ r p, (r, p) ∈ l ↔ ∃ val, (val, p) ∈ dist ∧ r = row ++ [val] ∧
        matches_evidence r evidence vars = some true
  | [] => ⟨[], rfl, by simp⟩
  | vp :: rest => by
    rcases vtfRow1_spec vars evidence row hk hlen rest with ⟨l0, hl0, hiff⟩
    have hm : matches_evidence (row ++ [vp.1]) evidence vars =
        some (decide (∀ p ∈ evidence,
          (listIndex vars p.1).bind (fun i => (row ++ [vp.1])[i]?) = some p.2)) :=
      matches_total hk (by rw [List.length_append]; simpa using hlen)
    cases hb : decide (∀ p ∈ evidence,
        (listIndex vars p.1).bind (fun i => (row ++ [vp.1])[i]?) = some p.2) with
    | true =>
      rw [hb] at hm
      refine ⟨(row ++ [vp.1], vp.2) :: l0, ?_, ?_⟩
      · simp only [vtfRow1, hm, hl0]
      · intro r p
        rw [List.mem_cons]
        constructor
        · rintro (heq | hmem)
          · injection heq with h1 h2
            exact ⟨vp.1, by simp [h2], h1, by rw [h1]; exact hm⟩
          · rcases (hiff r p).mp hmem with ⟨val, hval, hr, hmatch⟩
            exact ⟨val, by simp [hval], hr, hmatch⟩
        · rintro ⟨val, hval, hr, hmatch⟩
          rcases List.mem_cons.mp hval with heq | hmem
          · have h1 : val = vp.1 := congrArg Prod.fst heq
            have h2 : p = vp.2 := congrArg Prod.snd heq
            left
            rw [hr, h1, h2]
          · right
            exact (hiff r p).mpr ⟨val, hmem, hr, hmatch⟩
    | false =>
      rw [hb] at hm
      refine ⟨l0, ?_, ?_⟩
      · simp only [vtfRow1, hm, hl0]
      · intro r p
        constructor
        · intro hmem
          rcases (hiff r p).mp hmem with ⟨val, hval, hr, hmatch⟩
          exact ⟨val, by simp [hval], hr, hmatch⟩
        · rintro ⟨val, hval, hr, hmatch⟩
          rcases List.mem_cons.mp hval with heq | hmem
          · have h1 : val = vp.1 := congrArg Prod.fst heq
            rw [hr, h1] at hmatch
            rw [hmatch] at hm
            exact Bool.noConfusion (Option.some_inj.mp hm)
          · exact (hiff r p).mpr ⟨val, hmem, hr, hmatch⟩

/-- Evaluation of the outer `variable_to_factor` loop over the CPT rows. -/
theorem vtfRows_spec (vars : List Variable) (evidence : Evidence)
    (hk : ∀ p ∈ evidence, p.1 ∈ vars) :
    ∀ cpt : List (Row × List (Outcome × ℚ)),
      (∀ rd ∈ cpt, vars.length ≤ rd.1.length + 1) →
      ∃ l, vtfRows vars evidence cpt = some l ∧
        ∀ r p, (r, p) ∈ l ↔ ∃ row dist val, (row, dist) ∈ cpt ∧ (val, p) ∈ dist ∧
          r = row ++ [val] ∧ matches_evidence r evidence vars = some true
  | [], _ => ⟨[], rfl, by simp⟩
  | rd :: rest, h => by
    rcases vtfRow1_spec vars evidence rd.1 hk (h rd (by simp)) rd.2 with ⟨l1, hl1, hiff1⟩
    rcases vtfRows_spec vars evidence hk rest (fun q hq => h q (by simp [hq])) with
      ⟨l2, hl2, hiff2⟩
    refine ⟨l1 ++ l2, ?_, ?_⟩
    · simp only [vtfRows, hl1, hl2]
    · intro r p
      rw [List.mem_append]
      constructor
      · rintro (hmem | hmem)
        · rcases (hiff1 r p).mp hmem with ⟨val, hval, hr, hmatch⟩
          exact ⟨rd.1, rd.2, val, by simp, hval, hr, hmatch⟩
        · rcases (hiff2 r p).mp hmem with ⟨row, dist, val, hrd, hval, hr, hmatch⟩
          exact ⟨row, dist, val, by simp [hrd], hval, hr, hmatch⟩
      · rintro ⟨row, dist, val, hrd, hval, hr, hmatch⟩
        rcases List.mem_cons.mp hrd with heq | hmem
        · left
          have h1 : row = rd.1 := congrArg Prod.fst heq
          have h2 : dist = rd.2 := congrArg Prod.snd heq
          exact (hiff1 r p).mpr ⟨val, h2 ▸ hval, h1 ▸ hr, hmatch⟩
        · right
          exact (hiff2 r p).mpr ⟨row, dist, val, hmem, hval, hr, hmatch⟩

/-- The decided conjunction checked by `matches_evidence` against the
zip-Evidence of `sum_out` says exactly that the stored row's restriction to
the remaining variables is the consistent event. -/
theorem matches_zip_iff_restrict {Fv R : List Variable} {r nr : Row}
    (hnrlen : nr.length = R.length) :
    (∀ p ∈ R.zip nr, (listIndex Fv p.1).bind (fun i => r[i]?) = some p.2) ↔
      filter_event_values R (Fv.zip r) = some nr := by
  rw [filter_event_values, optMap_eq_some_iff]
  constructor
  · intro h
    rw [List.forall₂_iff_zip]
    refine ⟨hnrlen.symm, ?_⟩
    intro a b hab
    rw [alookup_zip]
    exact h (a, b) hab
  · intro h p hp
    have hp2 : (p.1, p.2) ∈ R.zip nr := by
      rw [Prod.mk.eta]
      exact hp
    have h2 := List.forall₂_zip h hp2
    rw [alookup_zip] at h2
    exact h2

/-- Evaluation of `Factor.sum_out` when the table rows are full-length and
the evidence mentions only remaining variables: the result is the factor
over the remaining variables mapping every consistent event to the sum of
the stored probabilities of the rows whose restriction to the remaining
variables equals that event. -/
theorem sum_out_eval (F : Factor) (v : Variable) (e : Evidence)
    (hlen : ∀ rp ∈ F.table, rp.1.length = F.vars.length)
    (he : ∀ p ∈ e, p.1 ∈ F.vars.filter (fun X => X ≠ v)) :
    F.sum_out v e = some ⟨F.vars.filter (fun X => X ≠ v),
      ((cartesianProduct ((F.vars.filter (fun X => X ≠ v)).map Variable.domain)).filter
        (fun nr => decide (∀ p ∈ e,
          (listIndex (F.vars.filter (fun X => X ≠ v)) p.1).bind
            (fun i => nr[i]?) = some p.2))).map
      (fun nr => (nr, (F.table.map (fun rp =>
        if filter_event_values (F.vars.filter (fun X => X ≠ v)) (F.vars.zip rp.1)
            = some nr then rp.2 else 0)).sum))⟩ := by
  have hsubR : ∀ w ∈ F.vars.filter (fun X => X ≠ v), w ∈ F.vars :=
    fun w hw => (List.mem_filter.mp hw).1
  have hev := all_consistent_events_eq (F.vars.filter (fun X => X ≠ v)) e he
  have hinner : ∀ nr ∈ (cartesianProduct
        ((F.vars.filter (fun X => X ≠ v)).map Variable.domain)).filter
        (fun nr => decide (∀ p ∈ e,
          (listIndex (F.vars.filter (fun X => X ≠ v)) p.1).bind
            (fun i => nr[i]?) = some p.2)),
      optMap (fun (rp : Row × ℚ) =>
        (matches_evidence rp.1 ((F.vars.filter (fun X => X ≠ v)).zip nr) F.vars).map
          (fun b => if b then rp.2 else 0)) F.table =
      some (F.table.map (fun rp =>
        if filter_event_values (F.vars.filter (fun X => X ≠ v)) (F.vars.zip rp.1)
            = some nr then rp.2 else 0)) := by
    intro nr hnr
    have hnrP : nr ∈ cartesianProduct
        ((F.vars.filter (fun X => X ≠ v)).map Variable.domain) :=
      (List.mem_filter.mp hnr).1
    have hnrlen : nr.length = (F.vars.filter (fun X => X ≠ v)).length :=
      length_of_mem_cartesianProduct hnrP
    apply optMap_eq_map
    intro rp hrp
    have hkz : ∀ p ∈ (F.vars.filter (fun X => X ≠ v)).zip nr, p.1 ∈ F.vars :=
      fun p hp => hsubR p.1 (List.of_mem_zip hp).1
    have hm := @matches_total rp.1 F.vars ((F.vars.filter (fun X => X ≠ v)).zip nr) hkz
      (le_of_eq (hlen rp hrp).symm)
    rw [hm, Option.map_some']
    refine congrArg some ?_
    refine if_congr ?_ rfl rfl
    rw [decide_eq_true_iff]
    exact matches_zip_iff_restrict hnrlen
  have houter : optMap (fun new_row =>
      match optMap (fun (rp : Row × ℚ) =>
        (matches_evidence rp.1 ((F.vars.filter (fun X => X ≠ v)).zip new_row) F.vars).map
          (fun b => if b then rp.2 else 0)) F.table with
      | none => none
      | some contribs => some (new_row, contribs.sum))
      ((cartesianProduct ((F.vars.filter (fun X => X ≠ v)).map Variable.domain)).filter
        (fun nr => decide (∀ p ∈ e,
          (listIndex (F.vars.filter (fun X => X ≠ v)) p.1).bind
            (fun i => nr[i]?) = some p.2))) =
      some (((cartesianProduct
          ((F.vars.filter (fun X => X ≠ v)).map Variable.domain)).filter
        (fun nr => decide (∀ p ∈ e,
          (listIndex (F.vars.filter (fun X => X ≠ v)) p.1).bind
            (fun i => nr[i]?) = some p.2))).map
      (fun nr => (nr, (F.table.map (fun rp =>
        if filter_event_values (F.vars.filter (fun X => X ≠ v)) (F.vars.zip rp.1)
            = some nr then rp.2 else 0)).sum))) := by
    apply optMap_eq_map
    intro nr hnr
    rw [hinner nr hnr]
  simp only [Factor.sum_out]
  rw [hev]
  dsimp only
  rw [houter]

/-! ### Claim theorems -/

/-- C7: for a row positionally aligned with `var_ordering` and an evidence
mapping whose variables all occur in `var_ordering`, `matches_evidence`
returns a boolean which is true iff, for every evidence pair, the row value
at the variable's (first) index in `var_ordering` is the required outcome;
and empty evidence matches every row. -/
theorem matches_evidence_spec (row : Row) (var_ordering : List Variable) (e : Evidence)
    (hk : ∀ p ∈ e, p.1 ∈ var_ordering) (hlen : row.length = var_ordering.length) :
    (∃ b, matches_evidence row e var_ordering = some b ∧
      (b = true ↔ ∀ p ∈ e, ∀ i, listIndex var_ordering p.1 = some i →
        row[i]? = some p.2)) ∧
    matches_evidence row [] var_ordering = some true := by
  constructor
  · rw [matches_total hk (le_of_eq hlen.symm)]
    refine ⟨_, rfl, ?_⟩
    rw [decide_eq_true_iff]
    constructor
    · intro h p hp i hi
      have hb := h p hp
      rw [hi, Option.some_bind] at hb
      exact hb
    · intro h p hp
      rcases listIndex_isSome_of_mem (hk p hp) with ⟨i, hi⟩
      rw [hi, Option.some_bind]
      exact h p hp i hi
  · rfl

/-- Witness for C7 at `row = [0, 1]`, ordering `[X, Y]`, evidence `{X: 0}`. -/
theorem matches_evidence_spec_witness :
    (∀ p ∈ ([(vX, 0)] : Evidence), p.1 ∈ [vX, vY]) ∧
    ([0, 1] : Row).length = [vX, vY].length ∧
    ((∃ b, matches_evidence [0, 1] [(vX, 0)] [vX, vY] = some b ∧
      (b = true ↔ ∀ p ∈ ([(vX, 0)] : Evidence), ∀ i, listIndex [vX, vY] p.1 = some i →
        ([0, 1] : Row)[i]? = some p.2)) ∧
    matches_evidence [0, 1] [] [vX, vY] = some true) :=
  ⟨by decide, by decide, matches_evidence_spec [0, 1] [vX, vY] [(vX, 0)] (by decide) (by decide)⟩

/-- C6: with empty evidence `all_consistent_events` returns exactly the rows
of the Cartesian product of the domains — one row per element, hence
product-of-domain-sizes many and duplicate-free — and with evidence on a
subset of the variables it returns exactly the product rows that satisfy
`matches_evidence`. -/
theorem all_consistent_events_spec (vs : List Variable) (e : Evidence)
    (hk : ∀ p ∈ e, p.1 ∈ vs) (hnd : ∀ v ∈ vs, v.domain.Nodup) :
    (all_consistent_events vs [] = some (cartesianProduct (vs.map Variable.domain)) ∧
      (cartesianProduct (vs.map Variable.domain)).length =
        (vs.map (fun v => v.domain.length)).prod ∧
      (cartesianProduct (vs.map Variable.domain)).Nodup) ∧
    (∃ l, all_consistent_events vs e = some l ∧
      ∀ row, row ∈ l ↔ row ∈ cartesianProduct (vs.map Variable.domain) ∧
        matches_evidence row e vs = some true) := by
  refine ⟨⟨?_, ?_, ?_⟩, ?_⟩
  · have h := optFilter_eq_filter (fun row => matches_evidence row [] vs)
      (fun _ => true) (cartesianProduct (vs.map Variable.domain)) (fun _ _ => rfl)
    rw [all_consistent_events, h, List.filter_true]
  · rw [length_cartesianProduct, List.map_map]
    rfl
  · exact nodup_cartesianProduct (by
      intro d hd
      rcases List.mem_map.mp hd with ⟨w, hw, rfl⟩
      exact hnd w hw)
  · refine ⟨_, all_consistent_events_eq vs e hk, ?_⟩
    intro row
    rw [List.mem_filter]
    constructor
    · rintro ⟨hmem, hdec⟩
      refine ⟨hmem, ?_⟩
      rw [matches_total hk (le_of_eq (length_of_mem_cartesianProduct hmem).symm)]
      rw [hdec]
    · rintro ⟨hmem, hmatch⟩
      refine ⟨hmem, ?_⟩
      rw [matches_total hk (le_of_eq (length_of_mem_cartesianProduct hmem).symm)] at hmatch
      exact Option.some_inj.mp hmatch

/-- Witness for C6 over `[X, Y]` with evidence `{Y: 1}`. -/
theorem all_consistent_events_spec_witness :
    (∀ p ∈ ([(vY, 1)] : Evidence), p.1 ∈ [vX, vY]) ∧
    (∀ v ∈ [vX, vY], v.domain.Nodup) ∧
    ((all_consistent_events [vX, vY] [] =
        some (cartesianProduct ([vX, vY].map Variable.domain)) ∧
      (cartesianProduct ([vX, vY].map Variable.domain)).length =
        ([vX, vY].map (fun v => v.domain.length)).prod ∧
      (cartesianProduct ([vX, vY].map Variable.domain)).Nodup) ∧
    (∃ l, all_consistent_events [vX, vY] [(vY, 1)] = some l ∧
      ∀ row, row ∈ l ↔ row ∈ cartesianProduct ([vX, vY].map Variable.domain) ∧
        matches_evidence row [(vY, 1)] [vX, vY] = some true)) :=
  ⟨by decide, by decide, all_consistent_events_spec [vX, vY] [(vY, 1)] (by decide) (by decide)⟩

/-- C8: a Factor lookup through an evidence-like mapping fails when the
mapping misses one of the factor's variables, fails when the reordered tuple
is not a stored key, and returns the stored probability when the mapping
covers the variables and the tuple is stored. -/
theorem factor_getitem_spec (f : Factor) (e : Evidence) :
    ((∃ v ∈ f.vars, alookup v e = none) → f.getItem e = none) ∧
    (∀ r, filter_event_values f.vars e = some r → r ∉ f.table.map Prod.fst →
      f.getItem e = none) ∧
    (∀ r p, filter_event_values f.vars e = some r → (f.table.map Prod.fst).Nodup →
      (r, p) ∈ f.table → f.getItem e = some p) := by
  refine ⟨?_, ?_, ?_⟩
  · rintro ⟨v, hv, hnone⟩
    have hfe : filter_event_values f.vars e = none :=
      optMap_eq_none _ hv hnone
    simp [Factor.getItem, hfe]
  · intro r hr hnot
    simp [Factor.getItem, hr, Factor.getRow, rlookup_eq_none.mpr hnot]
  · intro r p hr hnd hm
    simp [Factor.getItem, hr, Factor.getRow, rlookup_of_mem hnd hm]

/-- Witness for C8 on the one-variable factor `fA`: a mapping missing `X`, a
mapping giving `X` a value outside the stored keys, and a covering mapping
hitting a stored key. -/
theorem factor_getitem_spec_witness :
    fA.getItem [(vY, 0)] = none ∧
    fA.getItem [(vX, 5)] = none ∧
    fA.getItem [(vX, 1)] = some 7 :=
  ⟨(factor_getitem_spec fA [(vY, 0)]).1 ⟨vX, by decide, by decide⟩,
   (factor_getitem_spec fA [(vX, 5)]).2.1 [5] (by decide) (by decide),
   (factor_getitem_spec fA [(vX, 1)]).2.2 [1] 7 (by decide) (by decide) (by decide)⟩

/-- C9: for a weight mapping with non-negative values and positive total,
`normalize` returns the mapping with every weight divided by the total, with
the same keys, values summing to 1 and each lying in `[0,1]`; and any
mapping `normalize` ever returns has all its values inside `[0,1]` — the
in-loop assertion rejects (models: raises on) anything else. -/
theorem normalize_spec (dist : List (Outcome × ℚ))
    (hpos : ∀ kv ∈ dist, 0 ≤ kv.2) (htot : 0 < (dist.map Prod.snd).sum) :
    (normalize dist =
        some (dist.map (fun kv => (kv.1, kv.2 / (dist.map Prod.snd).sum))) ∧
      (dist.map (fun kv => (kv.1, kv.2 / (dist.map Prod.snd).sum))).map Prod.fst =
        dist.map Prod.fst ∧
      ((dist.map (fun kv => (kv.1, kv.2 / (dist.map Prod.snd).sum))).map Prod.snd).sum
        = 1 ∧
      ∀ kv ∈ dist.map (fun kv => (kv.1, kv.2 / (dist.map Prod.snd).sum)),
        0 ≤ kv.2 ∧ kv.2 ≤ 1) ∧
    ∀ (d2 : List (Outcome × ℚ)) l2, normalize d2 = some l2 →
      ∀ kv ∈ l2, 0 ≤ kv.2 ∧ kv.2 ≤ 1 := by
  have hbounds : ∀ kv ∈ dist.map (fun kv => (kv.1, kv.2 / (dist.map Prod.snd).sum)),
      0 ≤ kv.2 ∧ kv.2 ≤ 1 := by
    intro kv hkv
    rcases List.mem_map.mp hkv with ⟨kv0, hkv0, rfl⟩
    constructor
    · exact div_nonneg (hpos kv0 hkv0) (le_of_lt htot)
    · rw [div_le_one htot]
      refine List.single_le_sum (fun q hq => ?_) _ (List.mem_map.mpr ⟨kv0, hkv0, rfl⟩)
      rcases List.mem_map.mp hq with ⟨kv1, hkv1, rfl⟩
      exact hpos kv1 hkv1
  refine ⟨⟨?_, ?_, ?_, hbounds⟩, ?_⟩
  · cases dist with
    | nil => simp at htot
    | cons q t => exact normalize_cons q t (ne_of_gt htot) hbounds
  · rw [List.map_map]
    rfl
  · rw [List.map_map]
    have : (Prod.snd ∘ fun kv : Outcome × ℚ => (kv.1, kv.2 / (dist.map Prod.snd).sum)) =
        fun kv : Outcome × ℚ => kv.2 / (dist.map Prod.snd).sum := rfl
    rw [this, sum_map_div Prod.snd ((dist.map Prod.snd).sum) dist]
    exact div_self (ne_of_gt htot)
  · intro d2 l2 h kv hkv
    cases d2 with
    | nil =>
      simp only [normalize] at h
      cases h
      cases hkv
    | cons q t =>
      simp only [normalize] at h
      by_cases hz : (List.map Prod.snd (q :: t)).sum = 0
      · rw [if_pos hz] at h
        cases h
      · rw [if_neg hz] at h
        by_cases hc : (((q :: t).map
              (fun kv => (kv.1, kv.2 / (List.map Prod.snd (q :: t)).sum))).all
            (fun kv => decide (0 ≤ kv.2) && decide (kv.2 ≤ 1))) = true
        · rw [if_pos hc] at h
          cases h
          have hmem := (List.all_eq_true.mp hc) kv hkv
          rw [Bool.and_eq_true, decide_eq_true_iff, decide_eq_true_iff] at hmem
          exact hmem
        · rw [if_neg hc] at h
          cases h

/-- C1: the pointwise product of two factors whose tables are complete for
their domains, under evidence over a subset of the union of their variable
sets, is a factor over the union of the variable sets mapping every
evidence-consistent assignment of the union to the product of each input
factor's stored probability for the assignment's restriction (by variable
identity, not position) to that factor's variables. -/
theorem pointwise_product_spec (A B : Factor) (e : Evidence)
    (hA : ∀ row ∈ cartesianProduct (A.vars.map Variable.domain), (A.getRow row).isSome)
    (hB : ∀ row ∈ cartesianProduct (B.vars.map Variable.domain), (B.getRow row).isSome)
    (he : ∀ p ∈ e, p.1 ∈ A.vars ∨ p.1 ∈ B.vars) :
    ∃ G, A.pointwise_product B e = some G ∧
      (∀ w, w ∈ G.vars ↔ w ∈ A.vars ∨ w ∈ B.vars) ∧
      ∀ row ∈ cartesianProduct (G.vars.map Variable.domain),
        matches_evidence row e G.vars = some true →
        ∃ ra rb pa pb,
          filter_event_values A.vars (G.vars.zip row) = some ra ∧
          filter_event_values B.vars (G.vars.zip row) = some rb ∧
          A.getRow ra = some pa ∧ B.getRow rb = some pb ∧
          G.getRow row = some (pa * pb) := by
  have hUmem : ∀ w, w ∈ unionVars A.vars B.vars ↔ w ∈ A.vars ∨ w ∈ B.vars := by
    intro w
    rw [unionVars, List.mem_dedup, List.mem_append]
  have hsubA : ∀ w ∈ A.vars, w ∈ unionVars A.vars B.vars :=
    fun w hw => (hUmem w).mpr (Or.inl hw)
  have hsubB : ∀ w ∈ B.vars, w ∈ unionVars A.vars B.vars :=
    fun w hw => (hUmem w).mpr (Or.inr hw)
  have hkU : ∀ p ∈ e, p.1 ∈ unionVars A.vars B.vars :=
    fun p hp => (hUmem p.1).mpr (he p hp)
  have hev := all_consistent_events_eq (unionVars A.vars B.vars) e hkU
  have hstep : ∀ row ∈ (cartesianProduct
        ((unionVars A.vars B.vars).map Variable.domain)).filter
        (fun r => decide (∀ p ∈ e,
          (listIndex (unionVars A.vars B.vars) p.1).bind
            (fun i => r[i]?) = some p.2)),
      filter_event_values A.vars ((unionVars A.vars B.vars).zip row) =
        some (A.vars.map (fun w =>
          ((listIndex (unionVars A.vars B.vars) w).bind (fun i => row[i]?)).getD 0)) ∧
      filter_event_values B.vars ((unionVars A.vars B.vars).zip row) =
        some (B.vars.map (fun w =>
          ((listIndex (unionVars A.vars B.vars) w).bind (fun i => row[i]?)).getD 0)) ∧
      (A.getRow (A.vars.map (fun w =>
        ((listIndex (unionVars A.vars B.vars) w).bind (fun i => row[i]?)).getD 0))).isSome ∧
      (B.getRow (B.vars.map (fun w =>
        ((listIndex (unionVars A.vars B.vars) w).bind (fun i => row[i]?)).getD 0))).isSome := by
    intro row hrow
    have hrowP : row ∈ cartesianProduct
        ((unionVars A.vars B.vars).map Variable.domain) := (List.mem_filter.mp hrow).1
    have hlen : (unionVars A.vars B.vars).length ≤ row.length :=
      le_of_eq (length_of_mem_cartesianProduct hrowP).symm
    exact ⟨filter_event_values_zip _ row A.vars hsubA hlen,
      filter_event_values_zip _ row B.vars hsubB hlen,
      hA _ (restricted_mem_cartesian _ row A.vars hsubA hrowP),
      hB _ (restricted_mem_cartesian _ row B.vars hsubB hrowP)⟩
  have houter : optMap (fun new_row =>
      match A.getItem ((unionVars A.vars B.vars).zip new_row),
            B.getItem ((unionVars A.vars B.vars).zip new_row) with
      | some p_self, some p_other => some (new_row, p_self * p_other)
      | _, _ => none)
      ((cartesianProduct ((unionVars A.vars B.vars).map Variable.domain)).filter
        (fun r => decide (∀ p ∈ e,
          (listIndex (unionVars A.vars B.vars) p.1).bind
            (fun i => r[i]?) = some p.2))) =
      some (((cartesianProduct ((unionVars A.vars B.vars).map Variable.domain)).filter
        (fun r => decide (∀ p ∈ e,
          (listIndex (unionVars A.vars B.vars) p.1).bind
            (fun i => r[i]?) = some p.2))).map
        (fun row => (row,
          (A.getRow (A.vars.map (fun w =>
            ((listIndex (unionVars A.vars B.vars) w).bind (fun i => row[i]?)).getD 0))).getD 0 *
          (B.getRow (B.vars.map (fun w =>
            ((listIndex (unionVars A.vars B.vars) w).bind (fun i => row[i]?)).getD 0))).getD 0))) := by
    apply optMap_eq_map
    intro row hrow
    rcases hstep row hrow with ⟨hreA, hreB, hsA, hsB⟩
    rcases Option.isSome_iff_exists.mp hsA with ⟨pa, hpa⟩
    rcases Option.isSome_iff_exists.mp hsB with ⟨pb, hpb⟩
    have hgA : A.getItem ((unionVars A.vars B.vars).zip row) = some pa := by
      simp only [Factor.getItem, hreA]
      exact hpa
    have hgB : B.getItem ((unionVars A.vars B.vars).zip row) = some pb := by
      simp only [Factor.getItem, hreB]
      exact hpb
    rw [hgA, hgB, hpa, hpb]
    rfl
  refine ⟨⟨unionVars A.vars B.vars,
    ((cartesianProduct ((unionVars A.vars B.vars).map Variable.domain)).filter
      (fun r => decide (∀ p ∈ e,
        (listIndex (unionVars A.vars B.vars) p.1).bind
          (fun i => r[i]?) = some p.2))).map
      (fun row => (row,
        (A.getRow (A.vars.map (fun w =>
          ((listIndex (unionVars A.vars B.vars) w).bind (fun i => row[i]?)).getD 0))).getD 0 *
        (B.getRow (B.vars.map (fun w =>
          ((listIndex (unionVars A.vars B.vars) w).bind (fun i => row[i]?)).getD 0))).getD 0))⟩,
    ?_, hUmem, ?_⟩
  · simp only [Factor.pointwise_product]
    rw [hev]
    dsimp only
    rw [houter]
  · intro row hrowP hmatch
    have hdec : decide (∀ p ∈ e,
        (listIndex (unionVars A.vars B.vars) p.1).bind
          (fun i => row[i]?) = some p.2) = true := by
      have hm := @matches_total row (unionVars A.vars B.vars) e hkU
        (le_of_eq (length_of_mem_cartesianProduct hrowP).symm)
      rw [hm] at hmatch
      exact Option.some_inj.mp hmatch
    have hrow : row ∈ (cartesianProduct
        ((unionVars A.vars B.vars).map Variable.domain)).filter
        (fun r => decide (∀ p ∈ e,
          (listIndex (unionVars A.vars B.vars) p.1).bind
            (fun i => r[i]?) = some p.2)) := List.mem_filter.mpr ⟨hrowP, hdec⟩
    rcases hstep row hrow with ⟨hreA, hreB, hsA, hsB⟩
    rcases Option.isSome_iff_exists.mp hsA with ⟨pa, hpa⟩
    rcases Option.isSome_iff_exists.mp hsB with ⟨pb, hpb⟩
    refine ⟨_, _, pa, pb, hreA, hreB, hpa, hpb, ?_⟩
    simp only [Factor.getRow]
    simp only [Factor.getRow] at hpa hpb
    rw [rlookup_graph (fun r =>
      (rlookup (A.vars.map (fun w =>
        ((listIndex (unionVars A.vars B.vars) w).bind (fun i => r[i]?)).getD 0)) A.table).getD 0 *
      (rlookup (B.vars.map (fun w =>
        ((listIndex (unionVars A.vars B.vars) w).bind (fun i => r[i]?)).getD 0)) B.table).getD 0)
      _ hrow]
    rw [hpa, hpb]
    rfl

/-- Witness for C1: product of the complete factors `fA` (over `X`) and `fB`
(over `X, Y`) under evidence `{Y: 1}`. -/
theorem pointwise_product_spec_witness :
    (∀ row ∈ cartesianProduct (fA.vars.map Variable.domain), (fA.getRow row).isSome) ∧
    (∀ row ∈ cartesianProduct (fB.vars.map Variable.domain), (fB.getRow row).isSome) ∧
    (∀ p ∈ ([(vY, 1)] : Evidence), p.1 ∈ fA.vars ∨ p.1 ∈ fB.vars) ∧
    (∃ G, fA.pointwise_product fB [(vY, 1)] = some G ∧
      (∀ w, w ∈ G.vars ↔ w ∈ fA.vars ∨ w ∈ fB.vars) ∧
      ∀ row ∈ cartesianProduct (G.vars.map Variable.domain),
        matches_evidence row [(vY, 1)] G.vars = some true →
        ∃ ra rb pa pb,
          filter_event_values fA.vars (G.vars.zip row) = some ra ∧
          filter_event_values fB.vars (G.vars.zip row) = some rb ∧
          fA.getRow ra = some pa ∧ fB.getRow rb = some pb ∧
          G.getRow row = some (pa * pb)) :=
  ⟨by decide, by decide, by decide,
   pointwise_product_spec fA fB [(vY, 1)] (by decide) (by decide) (by decide)⟩

/-- C2: sum-out eliminates one variable: for a well-formed factor (distinct
variables, rows drawn from the domains), a variable occurring in it and an
evidence mapping over the remaining variables only, the result is a factor
over `F.variables` with `v` removed, mapping each evidence-consistent
assignment of the remaining variables to the sum of the stored probabilities
of the rows whose restriction (by variable identity) to the remaining
variables equals that assignment. -/
theorem sum_out_spec (F : Factor) (v : Variable) (e : Evidence)
    (hv : v ∈ F.vars) (hnd : F.vars.Nodup)
    (hrows : ∀ rp ∈ F.table, rp.1 ∈ cartesianProduct (F.vars.map Variable.domain))
    (he : ∀ p ∈ e, p.1 ∈ F.vars.filter (fun X => X ≠ v)) :
    ∃ G, F.sum_out v e = some G ∧
      G.vars = F.vars.filter (fun X => X ≠ v) ∧
      ∀ nr ∈ cartesianProduct ((F.vars.filter (fun X => X ≠ v)).map Variable.domain),
        matches_evidence nr e (F.vars.filter (fun X => X ≠ v)) = some true →
        G.getRow nr = some (((F.table.filter (fun rp =>
            filter_event_values (F.vars.filter (fun X => X ≠ v)) (F.vars.zip rp.1)
              = some nr)).map Prod.snd).sum) := by
  have hlen : ∀ rp ∈ F.table, rp.1.length = F.vars.length := by
    intro rp hrp
    have h := length_of_mem_cartesianProduct (hrows rp hrp)
    exact h
  refine ⟨_, sum_out_eval F v e hlen he, rfl, ?_⟩
  intro nr hnr hmatch
  have hdec : decide (∀ p ∈ e,
      (listIndex (F.vars.filter (fun X => X ≠ v)) p.1).bind
        (fun i => nr[i]?) = some p.2) = true := by
    have hm := @matches_total nr (F.vars.filter (fun X => X ≠ v)) e he
      (le_of_eq (length_of_mem_cartesianProduct hnr).symm)
    rw [hm] at hmatch
    exact Option.some_inj.mp hmatch
  have hmem : nr ∈ (cartesianProduct
      ((F.vars.filter (fun X => X ≠ v)).map Variable.domain)).filter
      (fun nr => decide (∀ p ∈ e,
        (listIndex (F.vars.filter (fun X => X ≠ v)) p.1).bind
          (fun i => nr[i]?) = some p.2)) :=
    List.mem_filter.mpr ⟨hnr, hdec⟩
  simp only [Factor.getRow]
  rw [rlookup_graph (fun nr => (F.table.map (fun rp =>
    if filter_event_values (F.vars.filter (fun X => X ≠ v)) (F.vars.zip rp.1)
        = some nr then rp.2 else 0)).sum) _ hmem]
  exact congrArg some (sum_map_ite_filter _ Prod.snd F.table)

/-- Witness for C2 on the two-variable factor `fB`, summing out `X` with
evidence `{Y: 1}`. -/
theorem sum_out_spec_witness :
    vX ∈ fB.vars ∧ fB.vars.Nodup ∧
    (∀ rp ∈ fB.table, rp.1 ∈ cartesianProduct (fB.vars.map Variable.domain)) ∧
    (∀ p ∈ ([(vY, 1)] : Evidence), p.1 ∈ fB.vars.filter (fun X => X ≠ vX)) ∧
    (∃ G, fB.sum_out vX [(vY, 1)] = some G ∧
      G.vars = fB.vars.filter (fun X => X ≠ vX) ∧
      ∀ nr ∈ cartesianProduct ((fB.vars.filter (fun X => X ≠ vX)).map Variable.domain),
        matches_evidence nr [(vY, 1)] (fB.vars.filter (fun X => X ≠ vX)) = some true →
        G.getRow nr = some (((fB.table.filter (fun rp =>
            filter_event_values (fB.vars.filter (fun X => X ≠ vX)) (fB.vars.zip rp.1)
              = some nr)).map Prod.snd).sum)) :=
  ⟨by decide, by decide, by decide, by decide,
   sum_out_spec fB vX [(vY, 1)] (by decide) (by decide) (by decide) (by decide)⟩

/-- C3: with empty evidence, summing out a variable of a well-formed
complete factor preserves the total probability mass: the values of
`F.sum_out v` sum to the same total as the values of `F`. -/
theorem sum_out_mass (F : Factor) (v : Variable)
    (hv : v ∈ F.vars) (hnd : F.vars.Nodup)
    (hdnd : ∀ w ∈ F.vars, w.domain.Nodup)
    (hrows : ∀ rp ∈ F.table, rp.1 ∈ cartesianProduct (F.vars.map Variable.domain))
    (hcomp : ∀ row ∈ cartesianProduct (F.vars.map Variable.domain),
      (F.getRow row).isSome) :
    ∃ G, F.sum_out v [] = some G ∧
      (G.table.map Prod.snd).sum = (F.table.map Prod.snd).sum := by
  have hlen : ∀ rp ∈ F.table, rp.1.length = F.vars.length :=
    fun rp hrp => length_of_mem_cartesianProduct (hrows rp hrp)
  have hempty : ∀ p ∈ ([] : Evidence), p.1 ∈ F.vars.filter (fun X => X ≠ v) := by
    intro p hp
    cases hp
  have hsubR : ∀ w ∈ F.vars.filter (fun X => X ≠ v), w ∈ F.vars :=
    fun w hw => (List.mem_filter.mp hw).1
  have hPRnd : (cartesianProduct
      ((F.vars.filter (fun X => X ≠ v)).map Variable.domain)).Nodup := by
    apply nodup_cartesianProduct
    intro d hd
    rcases List.mem_map.mp hd with ⟨w, hw, rfl⟩
    exact hdnd w (hsubR w hw)
  refine ⟨_, sum_out_eval F v [] hlen hempty, ?_⟩
  have hfilt : (cartesianProduct
      ((F.vars.filter (fun X => X ≠ v)).map Variable.domain)).filter
      (fun nr => decide (∀ p ∈ ([] : Evidence),
        (listIndex (F.vars.filter (fun X => X ≠ v)) p.1).bind
          (fun i => nr[i]?) = some p.2)) =
      cartesianProduct ((F.vars.filter (fun X => X ≠ v)).map Variable.domain) := by
    simp
  dsimp only
  rw [hfilt, List.map_map]
  have hcomp2 : (Prod.snd ∘ fun nr => (nr, (F.table.map (fun rp =>
      if filter_event_values (F.vars.filter (fun X => X ≠ v)) (F.vars.zip rp.1)
          = some nr then rp.2 else 0)).sum)) =
      fun nr => (F.table.map (fun rp =>
      if filter_event_values (F.vars.filter (fun X => X ≠ v)) (F.vars.zip rp.1)
          = some nr then rp.2 else 0)).sum := rfl
  rw [hcomp2]
  rw [sum_sum_comm (fun nr (rp : Row × ℚ) =>
    if filter_event_values (F.vars.filter (fun X => X ≠ v)) (F.vars.zip rp.1)
        = some nr then rp.2 else 0)
    (cartesianProduct ((F.vars.filter (fun X => X ≠ v)).map Variable.domain)) F.table]
  have hper : ∀ rp ∈ F.table,
      ((cartesianProduct ((F.vars.filter (fun X => X ≠ v)).map Variable.domain)).map
        (fun nr => if filter_event_values (F.vars.filter (fun X => X ≠ v))
            (F.vars.zip rp.1) = some nr then rp.2 else 0)).sum = rp.2 := by
    intro rp hrp
    have hre := filter_event_values_zip F.vars rp.1 (F.vars.filter (fun X => X ≠ v))
      hsubR (le_of_eq (hlen rp hrp).symm)
    have hmemx : (F.vars.filter (fun X => X ≠ v)).map
        (fun w => ((listIndex F.vars w).bind (fun i => rp.1[i]?)).getD 0) ∈
        cartesianProduct ((F.vars.filter (fun X => X ≠ v)).map Variable.domain) :=
      restricted_mem_cartesian F.vars rp.1 _ hsubR (hrows rp hrp)
    have hfun : ∀ nr : Row, (if filter_event_values (F.vars.filter (fun X => X ≠ v))
        (F.vars.zip rp.1) = some nr then rp.2 else 0) =
        (if (F.vars.filter (fun X => X ≠ v)).map
            (fun w => ((listIndex F.vars w).bind (fun i => rp.1[i]?)).getD 0) = nr
          then rp.2 else 0) := by
      intro nr
      rw [hre]
      exact if_congr Option.some_inj rfl rfl
    rw [List.map_congr_left (fun nr _ => hfun nr)]
    exact sum_ite_eq_single rp.2 hPRnd hmemx
  rw [List.map_congr_left hper]

/-- Witness for C3 on the complete two-variable factor `fB`, summing out
`X`. -/
theorem sum_out_mass_witness :
    vX ∈ fB.vars ∧ fB.vars.Nodup ∧ (∀ w ∈ fB.vars, w.domain.Nodup) ∧
    (∀ rp ∈ fB.table, rp.1 ∈ cartesianProduct (fB.vars.map Variable.domain)) ∧
    (∀ row ∈ cartesianProduct (fB.vars.map Variable.domain),
      (fB.getRow row).isSome) ∧
    (∃ G, fB.sum_out vX [] = some G ∧
      (G.table.map Prod.snd).sum = (fB.table.map Prod.snd).sum) :=
  ⟨by decide, by decide, by decide, by decide, by decide,
   sum_out_mass fB vX (by decide) (by decide) (by decide) (by decide) (by decide)⟩

/-- C10: sum-out never fails on a well-formed factor even when rows are
missing from its table: with full-length rows and evidence over the
remaining variables it returns a factor with an entry for every consistent
assignment of the remaining variables. -/
theorem sum_out_total (F : Factor) (v : Variable) (e : Evidence)
    (hv : v ∈ F.vars)
    (hlen : ∀ rp ∈ F.table, rp.1.length = F.vars.length)
    (he : ∀ p ∈ e, p.1 ∈ F.vars.filter (fun X => X ≠ v)) :
    ∃ G, F.sum_out v e = some G ∧
      G.vars = F.vars.filter (fun X => X ≠ v) ∧
      ∀ nr ∈ cartesianProduct ((F.vars.filter (fun X => X ≠ v)).map Variable.domain),
        matches_evidence nr e (F.vars.filter (fun X => X ≠ v)) = some true →
        ∃ q, G.getRow nr = some q := by
  refine ⟨_, sum_out_eval F v e hlen he, rfl, ?_⟩
  intro nr hnr hmatch
  have hdec : decide (∀ p ∈ e,
      (listIndex (F.vars.filter (fun X => X ≠ v)) p.1).bind
        (fun i => nr[i]?) = some p.2) = true := by
    have hm := @matches_total nr (F.vars.filter (fun X => X ≠ v)) e he
      (le_of_eq (length_of_mem_cartesianProduct hnr).symm)
    rw [hm] at hmatch
    exact Option.some_inj.mp hmatch
  have hmem : nr ∈ (cartesianProduct
      ((F.vars.filter (fun X => X ≠ v)).map Variable.domain)).filter
      (fun nr => decide (∀ p ∈ e,
        (listIndex (F.vars.filter (fun X => X ≠ v)) p.1).bind
          (fun i => nr[i]?) = some p.2)) :=
    List.mem_filter.mpr ⟨hnr, hdec⟩
  refine ⟨(F.table.map (fun rp =>
    if filter_event_values (F.vars.filter (fun X => X ≠ v)) (F.vars.zip rp.1)
        = some nr then rp.2 else 0)).sum, ?_⟩
  simp only [Factor.getRow]
  rw [rlookup_graph (fun nr => (F.table.map (fun rp =>
    if filter_event_values (F.vars.filter (fun X => X ≠ v)) (F.vars.zip rp.1)
        = some nr then rp.2 else 0)).sum) _ hmem]

/-- Witness for C10 on a factor over `X, Y` whose table is missing the rows
with `X = 1`, summing out `Y` with empty evidence. -/
theorem sum_out_total_witness :
    vY ∈ Factor.vars ⟨[vX, vY], [([0, 0], 9), ([0, 1], 1)]⟩ ∧
    (∀ rp ∈ Factor.table ⟨[vX, vY], [([0, 0], 9), ([0, 1], 1)]⟩,
      rp.1.length = (Factor.vars ⟨[vX, vY], [([0, 0], 9), ([0, 1], 1)]⟩).length) ∧
    (∃ G, Factor.sum_out ⟨[vX, vY], [([0, 0], 9), ([0, 1], 1)]⟩ vY [] = some G ∧
      G.vars = (Factor.vars ⟨[vX, vY], [([0, 0], 9), ([0, 1], 1)]⟩).filter
        (fun X => X ≠ vY) ∧
      ∀ nr ∈ cartesianProduct
          (((Factor.vars ⟨[vX, vY], [([0, 0], 9), ([0, 1], 1)]⟩).filter
            (fun X => X ≠ vY)).map Variable.domain),
        matches_evidence nr []
          ((Factor.vars ⟨[vX, vY], [([0, 0], 9), ([0, 1], 1)]⟩).filter
            (fun X => X ≠ vY)) = some true →
        ∃ q, G.getRow nr = some q) :=
  ⟨by decide, by decide,
   sum_out_total ⟨[vX, vY], [([0, 0], 9), ([0, 1], 1)]⟩ vY []
     (by decide) (by decide) (by decide)⟩

/-- C4 as stated is false: for the network variable `Y` (parents `[X]`) and
the evidence mapping `{W: 0}` on a variable outside `parents + [Y]`,
`variable_to_factor` raises (the `ValueError` of `variables.index(W)`,
modelled by `none`) instead of returning the described Factor. -/
theorem variable_to_factor_foreign_evidence :
    variable_to_factor nvY [(vW, 0)] = none := by decide

/-- C4 (amended): for every network Variable and every evidence mapping
whose variables lie inside `var.parents + [var]`, `variable_to_factor`
returns a Factor over `var.parents ++ [var]` whose table holds exactly the
evidence-consistent extended CPT rows with their probabilities. -/
theorem variable_to_factor_spec (var : NetVar) (evidence : Evidence)
    (hk : ∀ p ∈ evidence, p.1 ∈ var.parents ++ [var.self])
    (hcpt : ∀ rd ∈ var.cpt, rd.1.length = var.parents.length) :
    ∃ f nv, variable_to_factor var evidence = some (f, nv) ∧
      f.vars = var.parents ++ [var.self] ∧
      ∀ r p, (r, p) ∈ f.table ↔
        ∃ row dist val, (row, dist) ∈ var.cpt ∧ (val, p) ∈ dist ∧
          r = row ++ [val] ∧
          matches_evidence r evidence (var.parents ++ [var.self]) = some true := by
  rcases vtfRows_spec (var.parents ++ [var.self]) evidence hk var.cpt
      (fun rd hrd => by rw [List.length_append, hcpt rd hrd]; simp) with ⟨l, hl, hiff⟩
  exact ⟨⟨var.parents ++ [var.self], l⟩, ⟨var.self, var.parents ++ [var.self], var.cpt⟩,
    by simp only [variable_to_factor, hl], rfl, hiff⟩

/-- Witness for the amended C4 on the network variable `Y` with evidence
`{X: 0}` on its parent. -/
theorem variable_to_factor_spec_witness :
    (∀ p ∈ ([(vX, 0)] : Evidence), p.1 ∈ nvY.parents ++ [nvY.self]) ∧
    (∀ rd ∈ nvY.cpt, rd.1.length = nvY.parents.length) ∧
    (∃ f nv, variable_to_factor nvY [(vX, 0)] = some (f, nv) ∧
      f.vars = nvY.parents ++ [nvY.self] ∧
      ∀ r p, (r, p) ∈ f.table ↔
        ∃ row dist val, (row, dist) ∈ nvY.cpt ∧ (val, p) ∈ dist ∧
          r = row ++ [val] ∧
          matches_evidence r [(vX, 0)] (nvY.parents ++ [nvY.self]) = some true) :=
  ⟨by decide, by decide, variable_to_factor_spec nvY [(vX, 0)] (by decide) (by decide)⟩

/-- C5 is refuted by the code: `variable_to_factor` executes
`variables = var.parents; variables.append(var)`, which mutates the aliased
`var.parents` list in place, so after the call the parents sequence of `var`
is `parents + [var]`, not its pre-call value. Run on the one-parent network
variable `Y` with empty evidence. -/
theorem variable_to_factor_mutates_parents :
    ∃ f nv, variable_to_factor nvY [] = some (f, nv) ∧ nv.parents ≠ nvY.parents := by
  refine ⟨_, _, rfl, ?_⟩
  decide

/-- Witness for C9 on the weight mapping `{0: 1, 1: 3}`. -/
theorem normalize_spec_witness :
    (∀ kv ∈ distW, 0 ≤ kv.2) ∧ 0 < (distW.map Prod.snd).sum ∧
    ((normalize distW =
        some (distW.map (fun kv => (kv.1, kv.2 / (distW.map Prod.snd).sum))) ∧
      (distW.map (fun kv => (kv.1, kv.2 / (distW.map Prod.snd).sum))).map Prod.fst =
        distW.map Prod.fst ∧
      ((distW.map (fun kv => (kv.1, kv.2 / (distW.map Prod.snd).sum))).map Prod.snd).sum
        = 1 ∧
      ∀ kv ∈ distW.map (fun kv => (kv.1, kv.2 / (distW.map Prod.snd).sum)),
        0 ≤ kv.2 ∧ kv.2 ≤ 1) ∧
    ∀ (d2 : List (Outcome × ℚ)) l2, normalize d2 = some l2 →
      ∀ kv ∈ l2, 0 ≤ kv.2 ∧ kv.2 ≤ 1) :=
  ⟨by decide, by norm_num [distW],
   normalize_spec distW (by decide) (by norm_num [distW])⟩

end Prob4e
